import Mathlib

/-!
Shallow embedding of the molecule layout serializers of
`jsonrpc/types/serialize.go` (package `types`), with proofs of the
specified byte-layout properties.

Modelling conventions:
* Go `[]byte` becomes `List Nat` (each entry a byte value; the byte
  conversions the source performs are modelled by `% 256`).
* Go `uint32` arithmetic wraps modulo 2^32; every conversion or
  arithmetic step the source performs on `uint32` values is made
  explicit through `u32`.
* A `MolSerializer` is represented by the outcome of its `Serialize`
  call: `Except ε (List Nat)` (`ok bytes` or `error e`).
* Sequential `bytes.Buffer` writes are modelled by a left fold that
  appends each written chunk to the buffer contents.
* `SerializeTable` executes `offsets[0] = ...` unconditionally on a
  slice of length `len(fields)`; for an empty field list this is an
  index-out-of-range panic in Go, modelled here by `Option.none`.
-/

namespace CkbTypes

/-- Wrapping of Go `uint32` conversions and arithmetic (mod 2^32). -/
def u32 (n : Nat) : Nat := n % 4294967296

/-- `const u32Size uint32 = 4` -/
def u32Size : Nat := 4

/-- `serializeUint32`: `binary.LittleEndian.PutUint32` writes the value
into exactly 4 bytes, least-significant byte first. -/
def serializeUint32 (n : Nat) : List Nat :=
  [n % 256, n / 256 % 256, n / 65536 % 256, n / 16777216 % 256]

/-- Little-endian reading of the first 4 bytes of a byte sequence (the
decoder-side view used to state the wire-format properties). -/
def decodeUint32 (b : List Nat) : Nat :=
  b.getD 0 0 + 256 * b.getD 1 0 + 65536 * b.getD 2 0 + 16777216 * b.getD 3 0

/-- The 4-byte little-endian field stored at byte positions
`4 + 4*i .. 4 + 4*i + 3` of a DynVec/Table output: the i-th offset. -/
def readOffset (out : List Nat) (i : Nat) : Nat :=
  decodeUint32 (out.drop (4 + 4 * i))

/-- `SerializeArray`: serialize every item in order; on the first
failing `Serialize` call return its error and no result list. -/
def SerializeArray {ε : Type} : List (Except ε (List Nat)) → Except ε (List (List Nat))
  | [] => Except.ok []
  | item :: rest =>
    match item with
    | Except.error err => Except.error err
    | Except.ok b =>
      match SerializeArray rest with
      | Except.error err => Except.error err
      | Except.ok ret => Except.ok (b :: ret)

/-- `SerializeStruct`: write every field into a fresh buffer in order. -/
def SerializeStruct (fields : List (List Nat)) : List Nat :=
  fields.foldl (fun b f => b ++ f) []

/-- `SerializeFixVec`: empty input returns the 4 zero bytes; otherwise
the 4-byte little-endian item count followed by the items in order. -/
def SerializeFixVec (items : List (List Nat)) : List Nat :=
  if items.length = 0 then [0, 0, 0, 0]
  else items.foldl (fun b x => b ++ x) (serializeUint32 (u32 items.length))

/-- The offsets array filled by the loop shared by `SerializeDynVec` and
`SerializeTable`: `offsets[0] = first` and
`offsets[i] = offsets[i-1] + uint32(len(items[i-1]))` in wrapping
`uint32` arithmetic. -/
def molOffsets (first : Nat) : List (List Nat) → List Nat
  | [] => []
  | x :: xs => first :: molOffsets (u32 (first + u32 x.length)) xs

/-- The running `size` accumulator of `SerializeDynVec` and
`SerializeTable`: starting from `u32Size`, each iteration performs
`size += u32Size + uint32(len(items[i]))` in wrapping arithmetic. -/
def molSize (items : List (List Nat)) : Nat :=
  items.foldl (fun s x => u32 (s + u32 (u32Size + u32 x.length))) u32Size

/-- `SerializeDynVec`: empty input returns just the size header (== 4);
otherwise the 4-byte size, the offset table, then the item bytes. -/
def SerializeDynVec (items : List (List Nat)) : List Nat :=
  if items.length = 0 then serializeUint32 u32Size
  else
    (molOffsets (u32 (u32Size + u32 (u32Size * u32 items.length))) items).foldl
        (fun b o => b ++ serializeUint32 o) (serializeUint32 (molSize items))
      |> (fun hdr => items.foldl (fun b x => b ++ x) hdr)

/-- `SerializeTable`: same steps as `SerializeDynVec`, but the source
assigns `offsets[0]` unconditionally; on an empty field list the slice
`make([]uint32, 0)` has no index 0 and the assignment panics
(index out of range), modelled by `none`. -/
def SerializeTable (fields : List (List Nat)) : Option (List Nat) :=
  if fields.length = 0 then none
  else
    some ((molOffsets (u32 (u32Size + u32 (u32Size * u32 fields.length))) fields).foldl
        (fun b o => b ++ serializeUint32 o) (serializeUint32 (molSize fields))
      |> (fun hdr => fields.foldl (fun b x => b ++ x) hdr))

/-- `SerializeOption`: `nil` returns the empty byte sequence with no
error; a present item returns its own `Serialize` outcome unchanged. -/
def SerializeOption {ε : Type} : Option (Except ε (List Nat)) → Except ε (List Nat)
  | none => Except.ok []
  | some o => o

/-- Untruncated (mathematical) form of the offsets recurrence, used only
as a proof-side description of `molOffsets` when nothing overflows. -/
def specOffsets (first : Nat) : List (List Nat) → List Nat
  | [] => []
  | x :: xs => first :: specOffsets (first + x.length) xs

/-! ### Helper lemmas -/

theorem foldl_append_id : ∀ (l : List (List Nat)) (a : List Nat),
    l.foldl (fun b x => b ++ x) a = a ++ l.flatten
  | [], a => by simp
  | x :: xs, a => by
    simp only [List.foldl_cons, foldl_append_id xs, List.flatten_cons, List.append_assoc]

theorem foldl_append_ser : ∀ (l : List Nat) (a : List Nat),
    l.foldl (fun b o => b ++ serializeUint32 o) a = a ++ (l.map serializeUint32).flatten
  | [], a => by simp
  | x :: xs, a => by
    simp only [List.foldl_cons, foldl_append_ser xs, List.map_cons, List.flatten_cons,
      List.append_assoc]

/-! ### Claim theorems -/

/-- C9: `SerializeStruct` is the straight concatenation of the fields in
input order, its output length is the exact sum of the field lengths,
and an empty field list yields an empty output. -/
theorem SerializeStruct_concat (fields : List (List Nat)) :
    SerializeStruct fields = fields.flatten ∧
    (SerializeStruct fields).length = (fields.map List.length).sum ∧
    SerializeStruct [] = [] := by
  refine ⟨?_, ?_, rfl⟩ <;> simp [SerializeStruct, foldl_append_id]

/-- C5: `SerializeDynVec` of an empty list is exactly the four bytes
`[4,0,0,0]`: a size header equal to 4, no offsets, no bodies. -/
theorem SerializeDynVec_empty : SerializeDynVec [] = [4, 0, 0, 0] := by decide

/-- C6: `serializeUint32` always produces exactly 4 bytes and, for every
unsigned 32-bit value `n`, reading those 4 bytes back as little-endian
recovers `n` exactly. -/
theorem serializeUint32_le_roundtrip (n : Nat) (h : n < 4294967296) :
    (serializeUint32 n).length = 4 ∧ decodeUint32 (serializeUint32 n) = n := by
  refine ⟨rfl, ?_⟩
  simp [serializeUint32, decodeUint32]
  omega

theorem serializeUint32_le_roundtrip_witness :
    3735928559 < 4294967296 ∧ decodeUint32 (serializeUint32 3735928559) = 3735928559 :=
  ⟨by decide, (serializeUint32_le_roundtrip 3735928559 (by decide)).2⟩

/-- C4: `SerializeFixVec []` is exactly `[0,0,0,0]`; on a non-empty list
of `k` items the output has length `4 + sum of item lengths`, its first
4 bytes are `k` little-endian, and the rest is the concatenation of the
items in input order. -/
theorem SerializeFixVec_layout (items : List (List Nat)) (h : items.length < 4294967296) :
    SerializeFixVec [] = [0, 0, 0, 0] ∧
    (items ≠ [] →
      (SerializeFixVec items).length = 4 + (items.map List.length).sum ∧
      (SerializeFixVec items).take 4 = serializeUint32 items.length ∧
      (SerializeFixVec items).drop 4 = items.flatten) := by
  refine ⟨rfl, fun hne => ?_⟩
  have hl : items.length ≠ 0 := fun h0 => hne (List.length_eq_zero.mp h0)
  have hu : u32 items.length = items.length := Nat.mod_eq_of_lt h
  have hser : SerializeFixVec items = serializeUint32 items.length ++ items.flatten := by
    simp [SerializeFixVec, hl, foldl_append_id, hu]
  have h4 : (serializeUint32 items.length).length = 4 := rfl
  refine ⟨?_, ?_, ?_⟩
  · simp [hser, serializeUint32]
    omega
  · rw [hser, ← h4, List.take_left]
  · rw [hser, ← h4, List.drop_left]

theorem SerializeFixVec_layout_witness :
    ([[5], [6, 7]] : List (List Nat)).length < 4294967296 ∧
    ([[5], [6, 7]] : List (List Nat)) ≠ [] ∧
    (SerializeFixVec [[5], [6, 7]]).take 4 = serializeUint32 2 :=
  ⟨by decide, by decide,
    ((SerializeFixVec_layout [[5], [6, 7]] (by decide)).2 (by decide)).2.1⟩

/-- C7: `SerializeArray` fails with the first failing item's error,
discarding the byte sequences of the items before it; when every item
succeeds it returns the list of their byte sequences in input order. -/
theorem SerializeArray_spec {ε : Type} (pre bs : List (List Nat))
    (rest : List (Except ε (List Nat))) (e : ε) :
    SerializeArray (pre.map Except.ok ++ Except.error e :: rest) = Except.error e ∧
    (SerializeArray (bs.map Except.ok) : Except ε (List (List Nat))) = Except.ok bs := by
  constructor
  · induction pre with
    | nil => rfl
    | cons x xs ih =>
      simp only [List.map_cons, List.cons_append, SerializeArray, List.append_eq]
      rw [ih]
  · induction bs with
    | nil => rfl
    | cons x xs ih =>
      simp only [List.map_cons, SerializeArray]
      rw [ih]

/-- C8: `SerializeOption` of an absent item is the empty byte sequence
with no error; of a present item it is exactly the item's own encoding,
and a present item's error is propagated verbatim. -/
theorem SerializeOption_spec {ε : Type} (x : List Nat) (e : ε) :
    @SerializeOption ε none = Except.ok [] ∧
    SerializeOption (some (Except.ok x)) = (Except.ok x : Except ε (List Nat)) ∧
    SerializeOption (some (Except.error e)) = (Except.error e : Except ε (List Nat)) :=
  ⟨rfl, rfl, rfl⟩

/-- C10: on every non-empty input `SerializeTable` runs to completion
and produces exactly the bytes of `SerializeDynVec` on the same input. -/
theorem SerializeTable_eq_dynvec (fields : List (List Nat)) (h : fields ≠ []) :
    SerializeTable fields = some (SerializeDynVec fields) := by
  have hl : fields.length ≠ 0 := fun h0 => h (List.length_eq_zero.mp h0)
  simp [SerializeTable, SerializeDynVec, hl]

theorem SerializeTable_eq_dynvec_witness :
    ([[1]] : List (List Nat)) ≠ [] ∧ SerializeTable [[1]] = some (SerializeDynVec [[1]]) :=
  ⟨by decide, SerializeTable_eq_dynvec [[1]] (by decide)⟩

/-- C2 evidence: on an empty field list `SerializeTable` panics (the
unconditional `offsets[0]` store is out of range on a zero-length
slice), modelled by `none`, while the empty-input `SerializeDynVec` path
the claim refers to returns `[4,0,0,0]`. -/
theorem SerializeTable_empty_panics :
    SerializeTable ([] : List (List Nat)) = none ∧ SerializeDynVec [] = [4, 0, 0, 0] :=
  ⟨rfl, by decide⟩

/-! ### Offset arithmetic: the wrapping accumulators coincide with the
untruncated recurrence whenever the total encoded size fits in 32 bits. -/

theorem molSizeAux_eq : ∀ (items : List (List Nat)) (s : Nat),
    s + 4 * items.length + (items.map List.length).sum < 4294967296 →
    items.foldl (fun b x => u32 (b + u32 (u32Size + u32 x.length))) s =
      s + 4 * items.length + (items.map List.length).sum
  | [], s, _ => by simp
  | x :: xs, s, h => by
    have h2 : s + (4 + x.length) + 4 * xs.length + (xs.map List.length).sum < 4294967296 := by
      simp only [List.map_cons, List.sum_cons, List.length_cons] at h
      omega
    have step : u32 (s + u32 (u32Size + u32 x.length)) = s + (4 + x.length) := by
      simp only [u32, u32Size]
      omega
    rw [List.foldl_cons, step, molSizeAux_eq xs (s + (4 + x.length)) h2]
    simp only [List.map_cons, List.sum_cons, List.length_cons]
    omega

theorem molOffsets_eq_spec : ∀ (items : List (List Nat)) (first : Nat),
    first + (items.map List.length).sum < 4294967296 →
    molOffsets first items = specOffsets first items
  | [], _, _ => rfl
  | x :: xs, first, h => by
    have h2 : first + x.length + (xs.map List.length).sum < 4294967296 := by
      simp only [List.map_cons, List.sum_cons] at h
      omega
    have step : u32 (first + u32 x.length) = first + x.length := by
      simp only [u32]
      omega
    simp only [molOffsets, specOffsets, step, molOffsets_eq_spec xs (first + x.length) h2]

theorem specOffsets_length : ∀ (first : Nat) (items : List (List Nat)),
    (specOffsets first items).length = items.length
  | _, [] => rfl
  | first, x :: xs => by
    simp only [specOffsets, List.length_cons, specOffsets_length (first + x.length) xs]

theorem specOffsets_drop : ∀ (items : List (List Nat)) (i first : Nat),
    (specOffsets first items).drop i =
      specOffsets (first + ((items.take i).map List.length).sum) (items.drop i)
  | items, 0, first => by simp
  | [], i + 1, first => by simp [specOffsets]
  | x :: xs, i + 1, first => by
    simp only [specOffsets, List.drop_succ_cons, List.take_succ_cons, List.map_cons,
      List.sum_cons]
    rw [specOffsets_drop xs i (first + x.length)]
    congr 1
    omega

theorem mapser_flatten_length (offs : List Nat) :
    ((offs.map serializeUint32).flatten).length = 4 * offs.length := by
  induction offs with
  | nil => rfl
  | cons o os ih =>
    simp only [List.map_cons, List.flatten_cons, List.length_append, ih, List.length_cons]
    have h4 : (serializeUint32 o).length = 4 := rfl
    omega

theorem mapser_flatten_drop : ∀ (offs : List Nat) (i : Nat),
    ((offs.map serializeUint32).flatten).drop (4 * i) =
      ((offs.drop i).map serializeUint32).flatten
  | offs, 0 => by simp
  | [], i + 1 => by simp
  | o :: os, i + 1 => by
    simp only [List.map_cons, List.flatten_cons, List.drop_succ_cons]
    have h4 : (serializeUint32 o).length = 4 := rfl
    rw [show 4 * (i + 1) = (serializeUint32 o).length + 4 * i from by rw [h4]; omega,
      List.drop_append, mapser_flatten_drop os i]

theorem flatten_drop_sum : ∀ (items : List (List Nat)) (i : Nat),
    items.flatten.drop (((items.take i).map List.length).sum) = (items.drop i).flatten
  | items, 0 => by simp
  | [], i + 1 => by simp
  | x :: xs, i + 1 => by
    simp only [List.take_succ_cons, List.map_cons, List.sum_cons, List.flatten_cons,
      List.drop_succ_cons]
    rw [List.drop_append, flatten_drop_sum xs i]

theorem partSum_succ : ∀ (items : List (List Nat)) (i : Nat), i < items.length →
    ((items.take (i + 1)).map List.length).sum =
      ((items.take i).map List.length).sum + (items.getD i []).length
  | [], i, h => by simp at h
  | x :: xs, 0, _ => by simp
  | x :: xs, i + 1, h => by
    simp only [List.take_succ_cons, List.map_cons, List.sum_cons, List.getD_cons_succ]
    rw [partSum_succ xs i (by simpa using h)]
    omega

theorem partSum_split (items : List (List Nat)) (i : Nat) :
    ((items.take i).map List.length).sum + ((items.drop i).map List.length).sum =
      (items.map List.length).sum := by
  conv_rhs => rw [← List.take_append_drop i items]
  simp

theorem drop_eq_getD_cons : ∀ (l : List (List Nat)) (i : Nat), i < l.length →
    l.drop i = l.getD i [] :: l.drop (i + 1)
  | [], i, h => by simp at h
  | x :: xs, 0, _ => by simp
  | x :: xs, i + 1, h => by
    simp only [List.drop_succ_cons, List.getD_cons_succ]
    exact drop_eq_getD_cons xs i (by simpa using h)

theorem decode_ser_append (v : Nat) (r : List Nat) (hv : v < 4294967296) :
    decodeUint32 (serializeUint32 v ++ r) = v := by
  simp [decodeUint32, serializeUint32]
  omega

/-- Under the 32-bit fit hypothesis the DynVec output decomposes into the
size header, the offset table at the untruncated offsets, and the item
bodies. -/
theorem SerializeDynVec_shape (items : List (List Nat)) (hne : items ≠ [])
    (hfit : 4 + 4 * items.length + (items.map List.length).sum < 4294967296) :
    SerializeDynVec items =
      serializeUint32 (4 + 4 * items.length + (items.map List.length).sum) ++
        (((specOffsets (4 + 4 * items.length) items).map serializeUint32).flatten ++
          items.flatten) := by
  have hl : items.length ≠ 0 := fun h0 => hne (List.length_eq_zero.mp h0)
  have hfirst : u32 (u32Size + u32 (u32Size * u32 items.length)) = 4 + 4 * items.length := by
    simp only [u32, u32Size]
    omega
  have hsize : molSize items = 4 + 4 * items.length + (items.map List.length).sum := by
    have h := molSizeAux_eq items 4 (by omega)
    simpa [molSize, u32Size] using h
  have hoffs : molOffsets (u32 (u32Size + u32 (u32Size * u32 items.length))) items =
      specOffsets (4 + 4 * items.length) items := by
    rw [hfirst]
    exact molOffsets_eq_spec items (4 + 4 * items.length) (by omega)
  simp only [SerializeDynVec, if_neg hl, hoffs, hsize, foldl_append_ser, foldl_append_id]
  simp [List.append_assoc]

/-- The i-th 4-byte offset field of the DynVec output holds the
untruncated absolute offset of item i. -/
theorem readOffset_dynvec (items : List (List Nat)) (i : Nat) (hi : i < items.length)
    (hfit : 4 + 4 * items.length + (items.map List.length).sum < 4294967296) :
    readOffset (SerializeDynVec items) i =
      4 + 4 * items.length + ((items.take i).map List.length).sum := by
  have hne : items ≠ [] := by
    intro h0
    rw [h0] at hi
    simp at hi
  rw [readOffset, SerializeDynVec_shape items hne hfit]
  have h4 : (serializeUint32
      (4 + 4 * items.length + (items.map List.length).sum)).length = 4 := rfl
  rw [show 4 + 4 * i = (serializeUint32
      (4 + 4 * items.length + (items.map List.length).sum)).length + 4 * i from by
    rw [h4], List.drop_append]
  have hblen : (((specOffsets (4 + 4 * items.length) items).map
      serializeUint32).flatten).length = 4 * items.length := by
    rw [mapser_flatten_length, specOffsets_length]
  rw [List.drop_append_of_le_length (by rw [hblen]; omega), mapser_flatten_drop,
    specOffsets_drop, drop_eq_getD_cons items i hi]
  simp only [specOffsets, List.map_cons, List.flatten_cons, List.append_assoc]
  have hle := partSum_split items i
  exact decode_ser_append _ _ (by omega)

/-- Slicing the DynVec output at item i's untruncated offset for item
i's length recovers item i. -/
theorem dynvec_slice (items : List (List Nat)) (i : Nat) (hi : i < items.length)
    (hfit : 4 + 4 * items.length + (items.map List.length).sum < 4294967296) :
    ((SerializeDynVec items).drop
        (4 + 4 * items.length + ((items.take i).map List.length).sum)).take
      (items.getD i []).length = items.getD i [] := by
  have hne : items ≠ [] := by
    intro h0
    rw [h0] at hi
    simp at hi
  rw [SerializeDynVec_shape items hne hfit, ← List.append_assoc]
  have habl : (serializeUint32 (4 + 4 * items.length + (items.map List.length).sum) ++
      ((specOffsets (4 + 4 * items.length) items).map serializeUint32).flatten).length =
      4 + 4 * items.length := by
    rw [List.length_append, mapser_flatten_length, specOffsets_length]
    rfl
  rw [show 4 + 4 * items.length + ((items.take i).map List.length).sum =
      (serializeUint32 (4 + 4 * items.length + (items.map List.length).sum) ++
        ((specOffsets (4 + 4 * items.length) items).map serializeUint32).flatten).length +
        ((items.take i).map List.length).sum from by rw [habl], List.drop_append,
    flatten_drop_sum, drop_eq_getD_cons items i hi, List.flatten_cons]
  exact List.take_left _ _

/-- C1: for a non-empty item list whose encoded size fits in 32 bits,
the first 4 bytes of the `SerializeDynVec` output record the true total
output length `4 + 4*N + sum of item lengths`, the offset fields satisfy
`offset[0] = 4 + 4*N` and `offset[i+1] = offset[i] + length(item[i])`,
and each recorded offset is the exact start position of its item's bytes
in the output. -/
theorem SerializeDynVec_header_offsets (items : List (List Nat)) (hne : items ≠ [])
    (hfit : 4 + 4 * items.length + (items.map List.length).sum < 4294967296) :
    decodeUint32 (SerializeDynVec items) = (SerializeDynVec items).length ∧
    (SerializeDynVec items).length = 4 + 4 * items.length + (items.map List.length).sum ∧
    readOffset (SerializeDynVec items) 0 = 4 + 4 * items.length ∧
    (∀ i, i + 1 < items.length →
      readOffset (SerializeDynVec items) (i + 1) =
        readOffset (SerializeDynVec items) i + (items.getD i []).length) ∧
    (∀ i, i < items.length →
      ((SerializeDynVec items).drop (readOffset (SerializeDynVec items) i)).take
          (items.getD i []).length = items.getD i []) := by
  have hN : 0 < items.length := List.length_pos.mpr hne
  have hlen : (SerializeDynVec items).length =
      4 + 4 * items.length + (items.map List.length).sum := by
    rw [SerializeDynVec_shape items hne hfit, List.length_append, List.length_append,
      mapser_flatten_length, specOffsets_length, List.length_flatten]
    have h4 : (serializeUint32
        (4 + 4 * items.length + (items.map List.length).sum)).length = 4 := rfl
    omega
  refine ⟨?_, hlen, ?_, ?_, ?_⟩
  · rw [hlen, SerializeDynVec_shape items hne hfit]
    exact decode_ser_append _ _ hfit
  · rw [readOffset_dynvec items 0 hN hfit]
    simp
  · intro i hi
    rw [readOffset_dynvec items (i + 1) hi hfit, readOffset_dynvec items i (by omega) hfit,
      partSum_succ items i (by omega)]
    omega
  · intro i hi
    rw [readOffset_dynvec items i hi hfit]
    exact dynvec_slice items i hi hfit

theorem SerializeDynVec_header_offsets_witness :
    ([[7], [8, 9]] : List (List Nat)) ≠ [] ∧
    4 + 4 * ([[7], [8, 9]] : List (List Nat)).length +
      (([[7], [8, 9]] : List (List Nat)).map List.length).sum < 4294967296 ∧
    decodeUint32 (SerializeDynVec [[7], [8, 9]]) = (SerializeDynVec [[7], [8, 9]]).length :=
  ⟨by decide, by decide,
    (SerializeDynVec_header_offsets [[7], [8, 9]] (by decide) (by decide)).1⟩

/-- C3: for every item list whose encoded size fits in 32 bits, slicing
the `SerializeDynVec` output by its own recorded offsets (item i
spanning from offset i to offset i+1, the last item extending to the
recorded total size) reconstructs each original item byte-for-byte. -/
theorem SerializeDynVec_roundtrip (items : List (List Nat))
    (hfit : 4 + 4 * items.length + (items.map List.length).sum < 4294967296) :
    ∀ i, i < items.length →
      ((SerializeDynVec items).drop (readOffset (SerializeDynVec items) i)).take
          ((if i + 1 < items.length then readOffset (SerializeDynVec items) (i + 1)
            else decodeUint32 (SerializeDynVec items)) -
            readOffset (SerializeDynVec items) i) = items.getD i [] := by
  intro i hi
  have hne : items ≠ [] := by
    intro h0
    rw [h0] at hi
    simp at hi
  have hwidth : (if i + 1 < items.length then readOffset (SerializeDynVec items) (i + 1)
      else decodeUint32 (SerializeDynVec items)) -
      readOffset (SerializeDynVec items) i = (items.getD i []).length := by
    by_cases h : i + 1 < items.length
    · rw [if_pos h, readOffset_dynvec items (i + 1) h hfit,
        readOffset_dynvec items i hi hfit, partSum_succ items i hi]
      omega
    · rw [if_neg h]
      have hdec : decodeUint32 (SerializeDynVec items) =
          4 + 4 * items.length + (items.map List.length).sum := by
        rw [SerializeDynVec_shape items hne hfit]
        exact decode_ser_append _ _ hfit
      have hieq : i + 1 = items.length := by omega
      have hall : ((items.take (i + 1)).map List.length).sum =
          (items.map List.length).sum := by
        rw [hieq, List.take_length]
      have hsucc := partSum_succ items i hi
      rw [hdec, readOffset_dynvec items i hi hfit]
      omega
  rw [hwidth, readOffset_dynvec items i hi hfit]
  exact dynvec_slice items i hi hfit

theorem SerializeDynVec_roundtrip_witness :
    4 + 4 * ([[7], [8, 9]] : List (List Nat)).length +
      (([[7], [8, 9]] : List (List Nat)).map List.length).sum < 4294967296 ∧
    (1 : Nat) < ([[7], [8, 9]] : List (List Nat)).length ∧
    ((SerializeDynVec [[7], [8, 9]]).drop (readOffset (SerializeDynVec [[7], [8, 9]]) 1)).take
        ((if 1 + 1 < ([[7], [8, 9]] : List (List Nat)).length
          then readOffset (SerializeDynVec [[7], [8, 9]]) (1 + 1)
          else decodeUint32 (SerializeDynVec [[7], [8, 9]])) -
          readOffset (SerializeDynVec [[7], [8, 9]]) 1) = [8, 9] :=
  ⟨by decide, by decide, SerializeDynVec_roundtrip [[7], [8, 9]] (by decide) 1 (by decide)⟩

end CkbTypes
